import Mathlib

/-!
A verification development for the OneFlow Python frontend, covering the
eager interface-blob layer (`python/oneflow/experimental/interface_op_read_and_write.py`)
and the distributed-data-parallel gradient-readiness coordinator
(`python/oneflow/nn/parallel/ddp.py`).

Mutable Python state is embedded by explicit state passing; `assert`
statements become `Except.error` results; the OrderedDict
`ddp_state_for_reversed_params` becomes a list of entries in table order.
-/

namespace OneflowModel

/-! ## Shared error type

Python `assert` failures and not-found lookups are modelled as values of
this type.  Each distinct `assert` statement carries a distinct site tag. -/

inductive Err where
  | notFound
  | assertionFailed (site : String)
deriving DecidableEq, Repr

/-! ## DDP gradient-readiness coordinator (nn/parallel/ddp.py) -/

/-- One entry of `ddp_state_for_reversed_params`: the key (a parameter,
identified by a numeric id), the two boolean slots of the stored
two-element list, and the parameter's stored gradient (`param.grad`).
Slot 0 (`ready`) is written by the gradient hook; slot 1 (`reduced`) is
written during the table walk when the entry is reduced — the source's
loop destructures slot 1 under the name `deleted` and skips entries for
which it is set. -/
structure Entry where
  param : Nat
  ready : Bool
  reduced : Bool
  grad : Int
deriving DecidableEq, Repr

/-- The `for cur_param, (ready, deleted) in ddp_state_for_reversed_params.items()`
loop of the hook returned by `allreducefn` (ddp.py lines 27-37).  Walks the
table from its start; an entry whose slot 1 (`deleted`) is set is skipped
(`continue`); a ready entry is marked reduced and all-reduced (the
triggering parameter's result is returned as `ret`, any other parameter's
gradient is overwritten in place); the walk stops at the first entry that
is neither.  Returns the updated table, `ret`, and the list of parameters
reduced during this walk (one `allreduce_module` call per element). -/
def ddpWalk (ar : Int → Int) (param : Nat) (grad : Int) :
    List Entry → List Entry × Option Int × List Nat
  | [] => ([], none, [])
  | e :: rest =>
    if e.reduced then
      match ddpWalk ar param grad rest with
      | (rest', ret, red) => (e :: rest', ret, red)
    else if e.ready then
      match ddpWalk ar param grad rest with
      | (rest', ret, red) =>
        if e.param = param then
          ({ e with reduced := true } :: rest', some (ar grad), e.param :: red)
        else
          ({ e with reduced := true, grad := ar e.grad } :: rest', ret, e.param :: red)
    else
      (e :: rest, none, [])

/-- `ddp_state_for_reversed_params[param][0] = True` (ddp.py line 25):
the triggering parameter's slot 0 is set. -/
def setReady (p : Nat) (s : List Entry) : List Entry :=
  s.map fun e => if e.param = p then { e with ready := true } else e

/-- After the hook returns, the autograd engine stores the hook's return
value (or, when the hook returned `None`, the unchanged incoming
gradient) as the triggering parameter's gradient. -/
def accumulateGrad (p : Nat) (ret : Option Int) (g : Int) (s : List Entry) : List Entry :=
  s.map fun e => if e.param = p then { e with grad := ret.getD g } else e

/-- One full firing of the gradient-ready hook installed by
`allreducefn` for parameter `p` with incoming gradient `g`: mark `p`
ready, walk the table, store the resulting gradient.  Also returns the
list of parameters reduced by this invocation. -/
def fireHook (ar : Int → Int) (p : Nat) (g : Int) (s : List Entry) :
    List Entry × List Nat :=
  match ddpWalk ar p g (setReady p s) with
  | (s', ret, red) => (accumulateGrad p ret g s', red)

/-- Fire a sequence of gradient-ready hooks (each element is a parameter
id together with its incoming gradient), returning the final table. -/
def fireAll (ar : Int → Int) : List (Nat × Int) → List Entry → List Entry
  | [], s => s
  | pg :: rest, s => fireAll ar rest (fireHook ar pg.1 pg.2 s).1

/-- Fire a sequence of gradient-ready hooks, also recording, per hook
invocation, the list of parameters reduced by that invocation. -/
def fireSeq (ar : Int → Int) : List (Nat × Int) → List Entry → List Entry × List (List Nat)
  | [], s => (s, [])
  | pg :: rest, s =>
    match fireHook ar pg.1 pg.2 s with
    | (s', red) =>
      match fireSeq ar rest s' with
      | (s'', reds) => (s'', red :: reds)

/-- Number of collective dispatch batches in a recorded trace: the hook
invocations that issued at least one all-reduce. -/
def dispatchBatches (reds : List (List Nat)) : Nat :=
  (reds.filter fun l => !l.isEmpty).length

/-- Fresh table entry `(x, [False, False])` for a parameter with its
current gradient. -/
def initEntry (pg : Nat × Int) : Entry :=
  { param := pg.1, ready := false, reduced := false, grad := pg.2 }

/-- The freshly built readiness table over a list of parameters given in
table order. -/
def initState (ps : List (Nat × Int)) : List Entry :=
  ps.map initEntry

/-- The `hook` registered as forward hook (ddp.py lines 56-59): every
entry's two slots are assigned `False, False`. -/
def forwardHookReset (s : List Entry) : List Entry :=
  s.map fun e => { e with ready := false, reduced := false }

/-- The module wrapper's observable configuration: the world size and
the readiness table (`_ddp_state_for_reversed_params`). -/
structure DDPModule where
  world_size : Nat
  table : List Entry
deriving DecidableEq, Repr

/-- `DistributedDataParallel` (ddp.py lines 43-54): asserts
`get_local_rank() == get_rank()` and then builds the readiness table over
the module's parameters in reversed registration order (the gradient and
forward hooks are installed over that table). -/
def DistributedDataParallel (world_size local_rank rank : Nat)
    (ps : List (Nat × Int)) : Except Err DDPModule :=
  if local_rank = rank then
    .ok { world_size := world_size, table := initState ps.reverse }
  else
    .error (.assertionFailed "local_rank_eq_rank")

/-! ## Interface blob layer (experimental/interface_op_read_and_write.py) -/

/-- Op attribute descriptor: only the output binding names matter to the
functions under specification. -/
structure OpAttribute where
  output_bns : List String
deriving DecidableEq, Repr

/-- A logical blob id, in either of the two on-the-wire forms: the
structured `cfg` form (`lbi_util.LogicalBlobId`) or the plain protobuf
form (`logical_blob_id_util.LogicalBlobId`). -/
inductive Lbi where
  | cfg (op_name blob_name : String)
  | pb (op_name blob_name : String)
deriving DecidableEq, Repr

def Lbi.opName : Lbi → String
  | .cfg a _ => a
  | .pb a _ => a

def Lbi.blobName : Lbi → String
  | .cfg _ b => b
  | .pb _ b => b

/-- `isinstance(lbi, lbi_util.LogicalBlobId)`. -/
def Lbi.isCfg : Lbi → Bool
  | .cfg _ _ => true
  | .pb _ _ => false

/-- Raw (plain protobuf) parallel configuration. -/
structure RawParallelConf where
  device_tag : String
  device_name : List String
  hierarchy : Option (List Nat)
deriving DecidableEq, Repr

/-- Structured shape proto (`shape_proto_cfg.ShapeProto`), built by
repeated `add_dim`. -/
structure ShapeProto where
  dim : List Nat
deriving DecidableEq, Repr

/-- Structured parallel configuration (`placement_cfg.ParallelConf`). -/
structure CfgParallelConf where
  device_tag : String
  device_name : List String
  hierarchy : Option ShapeProto
deriving DecidableEq, Repr

/-- The parallel configuration returned by
`ParallelConf4LazyInterfaceOpName`, which may already be in structured
form. -/
inductive ParallelConfInput where
  | cfgConf (c : CfgParallelConf)
  | rawConf (c : RawParallelConf)
deriving DecidableEq, Repr

/-- The translation block of `_GetInterfaceBlobObject` (lines 54-64):
build an empty structured conf, `set_device_tag`, `add_device_name` for
every device name in order, and, if a hierarchy is present, `add_dim`
for each dimension, asserting `hierarchy.dim_size() > 0`. -/
def translateParallelConf (pc : RawParallelConf) : Except Err CfgParallelConf :=
  let cfg : CfgParallelConf :=
    { device_tag := pc.device_tag
      device_name := pc.device_name.foldl (fun acc n => acc ++ [n]) []
      hierarchy := none }
  match pc.hierarchy with
  | none => .ok cfg
  | some dims =>
    let hierarchy : ShapeProto := { dim := dims.foldl (fun acc d => acc ++ [d]) [] }
    if hierarchy.dim.length > 0 then
      .ok { cfg with hierarchy := some hierarchy }
    else
      .error (.assertionFailed "hierarchy_dim_size")

/-- The `isinstance(parallel_conf, ...ParallelConf)` dispatch of
`_GetInterfaceBlobObject` (lines 51-64): an already-structured conf is
used as is, a raw one is translated. -/
def resolveParallelConf : ParallelConfInput → Except Err CfgParallelConf
  | .cfgConf c => .ok c
  | .rawConf c => translateParallelConf c

/-- Native blob object handle (the result of `MakeLazyRefBlobObject` or
an entry of `var_name2var_blob`), carrying its placement attribute's
`is_mirrored` flag. -/
structure BlobObject where
  op_name : String
  parallel_conf : CfgParallelConf
  is_mirrored : Bool
deriving DecidableEq, Repr

/-- A wrapped remote blob: `EagerMirroredBlob` or `EagerConsistentBlob`
over a logical blob id, a blob object and a job name. -/
inductive RemoteBlob where
  | eagerMirrored (lbi : Lbi) (blob_object : BlobObject) (job_name : String)
  | eagerConsistent (lbi : Lbi) (blob_object : BlobObject) (job_name : String)
deriving DecidableEq, Repr

def RemoteBlob.blobObject : RemoteBlob → BlobObject
  | .eagerMirrored _ bo _ => bo
  | .eagerConsistent _ bo _ => bo

/-- `if blob_object.op_arg_parallel_attr.is_mirrored(): ... else: ...`
(lines 85-92 and 124-131). -/
def wrapRemoteBlob (lbi : Lbi) (bo : BlobObject) (job_name : String) : RemoteBlob :=
  if bo.is_mirrored then .eagerMirrored lbi bo job_name
  else .eagerConsistent lbi bo job_name

/-- The read-only collaborators of the session: the op attribute
resolver, job-name and parallel-conf lookups, the eager variable table,
and the native runtime's behaviour (mirrored classification and the
value read back by `remote_blob.numpy()`). -/
structure SessionEnv where
  eagerExecutionEnabled : Bool
  varNameToVarBlob : String → Option BlobObject
  opAttrOf : String → Option OpAttribute
  jobNameOf : String → String
  parallelConfOf : String → ParallelConfInput
  mirroredOf : String → Bool
  numpyOf : RemoteBlob → Int

/-- The mutable session state the functions under specification touch:
the lazy-blob cache behind `FindOrCreateLazyBlob` and a count of
`LogicalRun` dispatches issued so far. -/
structure SessionState where
  lazyBlobCache : List (String × RemoteBlob)
  logicalRunCount : Nat
deriving DecidableEq, Repr

/-- Association-list lookup used for the session's lazy-blob cache. -/
def lookupCache (name : String) : List (String × RemoteBlob) → Option RemoteBlob
  | [] => none
  | nb :: rest => if nb.1 = name then some nb.2 else lookupCache name rest

/-- `_GetInterfaceBlobObject` (lines 41-68): in eager mode, look the
blob object up in `var_name2var_blob`; otherwise resolve the op
attribute, normalize the parallel configuration, and make a lazy-ref
blob object. -/
def _GetInterfaceBlobObject (env : SessionEnv) (op_name : String) :
    Except Err BlobObject :=
  if env.eagerExecutionEnabled then
    match env.varNameToVarBlob op_name with
    | some bo => .ok bo
    | none => .error .notFound
  else
    match env.opAttrOf op_name with
    | none => .error .notFound
    | some _ =>
      match resolveParallelConf (env.parallelConfOf op_name) with
      | .error e => .error e
      | .ok conf =>
        .ok { op_name := op_name, parallel_conf := conf
              is_mirrored := env.mirroredOf op_name }

/-- The `Build` closure inside `CreateBlob` (lines 78-93): get the blob
object, build the logical blob id from the op name and the single output
binding name — `assert len(op_attribute.output_bns) == 1` — and wrap as
a mirrored or consistent eager blob. -/
def buildInterfaceBlob (env : SessionEnv) (op_name : String) :
    Except Err RemoteBlob :=
  match _GetInterfaceBlobObject env op_name with
  | .error e => .error e
  | .ok blob_object =>
    match env.opAttrOf op_name with
    | none => .error .notFound
    | some op_attribute =>
      if op_attribute.output_bns.length = 1 then
        let lbi := Lbi.cfg op_name (op_attribute.output_bns.headD "")
        .ok (wrapRemoteBlob lbi blob_object (env.jobNameOf op_name))
      else
        .error (.assertionFailed "output_bns")

/-- `CreateBlob` (lines 75-101): one `LogicalRun` dispatch executing the
`Build` closure; the calling thread awaits exactly one yielded blob. -/
def CreateBlob (env : SessionEnv) (op_name : String) (s : SessionState) :
    Except Err (RemoteBlob × SessionState) :=
  match buildInterfaceBlob env op_name with
  | .ok rb => .ok (rb, { s with logicalRunCount := s.logicalRunCount + 1 })
  | .error e => .error e

/-- Modelled from the spec: `Session.FindOrCreateLazyBlob` is session
code of this repository that is not under `src/` (only its caller,
`GetEagerInterfaceBlob`, is).  Per the spec it returns the blob already
cached for the op name when present — a pure cache hit with no runtime
dispatch and no side effects — and otherwise runs the factory once and
caches its result under the name. -/
def FindOrCreateLazyBlob (op_name : String)
    (factory : SessionState → Except Err (RemoteBlob × SessionState))
    (s : SessionState) : Except Err (RemoteBlob × SessionState) :=
  match lookupCache op_name s.lazyBlobCache with
  | some rb => .ok (rb, s)
  | none =>
    match factory s with
    | .ok (rb, s') =>
      .ok (rb, { s' with lazyBlobCache := (op_name, rb) :: s'.lazyBlobCache })
    | .error e => .error e

/-- `GetEagerInterfaceBlob` (lines 71-103). -/
def GetEagerInterfaceBlob (env : SessionEnv) (op_name : String) (s : SessionState) :
    Except Err (RemoteBlob × SessionState) :=
  FindOrCreateLazyBlob op_name (CreateBlob env op_name) s

/-- `GetInterfaceBlobValue` (lines 106-137): resolve the interface blob,
rebuild the logical blob id (asserting a single output binding name),
defensively re-normalize it if it is not already in structured form,
re-wrap, and read the value back; the whole build is one `LogicalRun`
dispatch. -/
def GetInterfaceBlobValue (env : SessionEnv) (op_name : String) (s : SessionState) :
    Except Err (Int × SessionState) :=
  let job_name := env.jobNameOf op_name
  match GetEagerInterfaceBlob env op_name s with
  | .error e => .error e
  | .ok (rb, s₁) =>
    let blob_object := rb.blobObject
    match env.opAttrOf op_name with
    | none => .error .notFound
    | some op_attribute =>
      if op_attribute.output_bns.length = 1 then
        let lbi := Lbi.cfg op_name (op_attribute.output_bns.headD "")
        let lbi := if lbi.isCfg then lbi else Lbi.cfg lbi.opName lbi.blobName
        let remote_blob := wrapRemoteBlob lbi blob_object job_name
        .ok (env.numpyOf remote_blob,
             { s₁ with logicalRunCount := s₁.logicalRunCount + 1 })
      else
        .error (.assertionFailed "output_bns")

/-- `GetInterfaceBlobValue` with the defensive re-normalization branch
(lines 119-123) removed; named by the refinement claim comparing it with
the function as written. -/
def GetInterfaceBlobValueNoRenorm (env : SessionEnv) (op_name : String)
    (s : SessionState) : Except Err (Int × SessionState) :=
  let job_name := env.jobNameOf op_name
  match GetEagerInterfaceBlob env op_name s with
  | .error e => .error e
  | .ok (rb, s₁) =>
    let blob_object := rb.blobObject
    match env.opAttrOf op_name with
    | none => .error .notFound
    | some op_attribute =>
      if op_attribute.output_bns.length = 1 then
        let lbi := Lbi.cfg op_name (op_attribute.output_bns.headD "")
        let remote_blob := wrapRemoteBlob lbi blob_object job_name
        .ok (env.numpyOf remote_blob,
             { s₁ with logicalRunCount := s₁.logicalRunCount + 1 })
      else
        .error (.assertionFailed "output_bns")

/-! ## Basic equations for the DDP walk -/

@[simp]
theorem ddpWalk_nil (ar : Int → Int) (p : Nat) (g : Int) :
    ddpWalk ar p g [] = ([], none, []) := rfl

theorem ddpWalk_cons_skip (ar : Int → Int) (p : Nat) (g : Int) (e : Entry)
    (rest : List Entry) (h : e.reduced = true) :
    ddpWalk ar p g (e :: rest) =
      (e :: (ddpWalk ar p g rest).1, (ddpWalk ar p g rest).2.1,
        (ddpWalk ar p g rest).2.2) := by
  rcases hw : ddpWalk ar p g rest with ⟨a, b, c⟩
  simp [ddpWalk, h, hw]

theorem ddpWalk_cons_reduce_self (ar : Int → Int) (p : Nat) (g : Int) (e : Entry)
    (rest : List Entry) (h1 : e.reduced = false) (h2 : e.ready = true)
    (h3 : e.param = p) :
    ddpWalk ar p g (e :: rest) =
      ({ e with reduced := true } :: (ddpWalk ar p g rest).1, some (ar g),
        e.param :: (ddpWalk ar p g rest).2.2) := by
  rcases hw : ddpWalk ar p g rest with ⟨a, b, c⟩
  simp [ddpWalk, h1, h2, h3, hw]

theorem ddpWalk_cons_reduce_other (ar : Int → Int) (p : Nat) (g : Int) (e : Entry)
    (rest : List Entry) (h1 : e.reduced = false) (h2 : e.ready = true)
    (h3 : ¬e.param = p) :
    ddpWalk ar p g (e :: rest) =
      ({ e with reduced := true, grad := ar e.grad } :: (ddpWalk ar p g rest).1,
        (ddpWalk ar p g rest).2.1, e.param :: (ddpWalk ar p g rest).2.2) := by
  rcases hw : ddpWalk ar p g rest with ⟨a, b, c⟩
  simp [ddpWalk, h1, h2, h3, hw]

theorem ddpWalk_cons_break (ar : Int → Int) (p : Nat) (g : Int) (e : Entry)
    (rest : List Entry) (h1 : e.reduced = false) (h2 : e.ready = false) :
    ddpWalk ar p g (e :: rest) = (e :: rest, none, []) := by
  simp [ddpWalk, h1, h2]

@[simp]
theorem setReady_nil (p : Nat) : setReady p [] = [] := rfl

@[simp]
theorem setReady_cons (p : Nat) (e : Entry) (s : List Entry) :
    setReady p (e :: s) =
      (if e.param = p then { e with ready := true } else e) :: setReady p s := rfl

@[simp]
theorem accumulateGrad_nil (p : Nat) (ret : Option Int) (g : Int) :
    accumulateGrad p ret g [] = [] := rfl

@[simp]
theorem accumulateGrad_cons (p : Nat) (ret : Option Int) (g : Int) (e : Entry)
    (s : List Entry) :
    accumulateGrad p ret g (e :: s) =
      (if e.param = p then { e with grad := ret.getD g } else e) ::
        accumulateGrad p ret g s := rfl

/-! ## Flag-level characterization of the readiness table -/

/-- The readiness flags of a table, forgetting gradients. -/
def flagsOf (s : List Entry) : List (Nat × Bool × Bool) :=
  s.map fun e => (e.param, e.ready, e.reduced)

@[simp]
theorem flagsOf_nil : flagsOf [] = [] := rfl

@[simp]
theorem flagsOf_cons (e : Entry) (s : List Entry) :
    flagsOf (e :: s) = (e.param, e.ready, e.reduced) :: flagsOf s := rfl

/-- Pointwise update of a readiness predicate. -/
def updReady (R : Nat → Bool) (p : Nat) : Nat → Bool :=
  fun q => if q = p then true else R q

/-- The canonical flag assignment over a table listing parameters `ps`:
`R` gives each entry's ready flag, and the reduced flag of an entry is
the conjunction of `F` over the entry and all entries before it (the
accumulator `b` carries the conjunction so far). -/
def chainFlags (R F : Nat → Bool) : Bool → List Nat → List (Nat × Bool × Bool)
  | _, [] => []
  | b, q :: ps => (q, R q, b && F q) :: chainFlags R F (b && F q) ps

@[simp]
theorem chainFlags_nil (R F : Nat → Bool) (b : Bool) : chainFlags R F b [] = [] := rfl

@[simp]
theorem chainFlags_cons (R F : Nat → Bool) (b : Bool) (q : Nat) (ps : List Nat) :
    chainFlags R F b (q :: ps) = (q, R q, b && F q) :: chainFlags R F (b && F q) ps := rfl

/-- The ready predicate accumulated over a sequence of hook firings. -/
def firedAfter (R : Nat → Bool) : List (Nat × Int) → Nat → Bool
  | [] => R
  | pg :: rest => firedAfter (updReady R pg.1) rest

theorem chainFlags_acc_false (R F : Nat → Bool) :
    ∀ ps : List Nat, chainFlags R F false ps = ps.map fun q => (q, R q, false) := by
  intro ps
  induction ps with
  | nil => rfl
  | cons q ps ih => simp [ih]

theorem setReady_chainFlags (p : Nat) (R F : Nat → Bool) :
    ∀ (ps : List Nat) (b : Bool) (s : List Entry),
      flagsOf s = chainFlags R F b ps →
      flagsOf (setReady p s) = chainFlags (updReady R p) F b ps := by
  intro ps
  induction ps with
  | nil =>
    intro b s h
    cases s with
    | nil => rfl
    | cons e s' => simp at h
  | cons q ps ih =>
    intro b s h
    cases s with
    | nil => simp at h
    | cons e s' =>
      simp only [flagsOf_cons, chainFlags_cons, List.cons.injEq, Prod.mk.injEq] at h
      obtain ⟨⟨hq, hr, hd⟩, htail⟩ := h
      simp only [setReady_cons, flagsOf_cons, chainFlags_cons, List.cons.injEq,
        Prod.mk.injEq]
      refine ⟨?_, ih (b && F q) s' htail⟩
      by_cases hp : e.param = p
      · subst hq
        simp [hp, updReady, hd]
      · subst hq
        simp [hp, updReady, hr, hd, if_neg hp]

theorem accumulateGrad_flagsOf (p : Nat) (ret : Option Int) (g : Int) :
    ∀ s : List Entry, flagsOf (accumulateGrad p ret g s) = flagsOf s := by
  intro s
  induction s with
  | nil => rfl
  | cons e s ih =>
    by_cases hp : e.param = p <;> simp [hp, ih]

theorem ddpWalk_chainFlags (ar : Int → Int) (p : Nat) (g : Int) (R F : Nat → Bool)
    (hRF : ∀ q, F q = true → R q = true) :
    ∀ (ps : List Nat) (b : Bool) (s : List Entry),
      flagsOf s = chainFlags R F b ps →
      flagsOf (ddpWalk ar p g s).1 = chainFlags R R true ps := by
  intro ps
  induction ps with
  | nil =>
    intro b s h
    cases s with
    | nil => rfl
    | cons e s' => simp at h
  | cons q ps ih =>
    intro b s h
    cases s with
    | nil => simp at h
    | cons e s' =>
      simp only [flagsOf_cons, chainFlags_cons, List.cons.injEq, Prod.mk.injEq] at h
      obtain ⟨⟨hq, hr, hd⟩, htail⟩ := h
      by_cases hred : e.reduced = true
      · -- skipped entry: its reduced flag forces the whole prefix to be set
        have hbF : b = true ∧ F q = true := by
          constructor
          · by_contra hb
            simp [Bool.not_eq_true] at hb
            rw [hb] at hd; simp [hred] at hd
          · by_contra hb
            simp [Bool.not_eq_true] at hb
            rw [hb] at hd; simp [hred] at hd
        obtain ⟨hb, hFq⟩ := hbF
        have hRq : R q = true := hRF q hFq
        rw [ddpWalk_cons_skip ar p g e s' hred]
        simp only [flagsOf_cons, chainFlags_cons, List.cons.injEq, Prod.mk.injEq]
        refine ⟨⟨hq, ?_, ?_⟩, ?_⟩
        · rw [hr, hRq]
        · rw [hred, hRq]; simp
        · rw [hRq]
          simp only [Bool.true_and]
          exact ih (b && F q) s' htail
      · have hred' : e.reduced = false := by
          cases hef : e.reduced
          · rfl
          · exact absurd hef hred
        by_cases hrdy : e.ready = true
        · -- ready entry: reduced by this walk
          have hRq : R q = true := by rw [← hq] at hr ⊢; rw [← hr, hrdy]
          have hacc : (b && F q) = false := by rw [← hd, hred']
          have htail' : flagsOf s' = chainFlags R F false ps := by
            rw [htail, hacc]
          have hihtail : flagsOf (ddpWalk ar p g s').1 = chainFlags R R true ps :=
            ih false s' htail'
          by_cases hp : e.param = p
          · rw [ddpWalk_cons_reduce_self ar p g e s' hred' hrdy hp]
            simp only [flagsOf_cons, chainFlags_cons, List.cons.injEq, Prod.mk.injEq]
            refine ⟨⟨hq, ?_, ?_⟩, ?_⟩
            · rw [hr, hRq]
            · rw [hRq]; simp
            · rw [hRq]; simpa using hihtail
          · rw [ddpWalk_cons_reduce_other ar p g e s' hred' hrdy hp]
            simp only [flagsOf_cons, chainFlags_cons, List.cons.injEq, Prod.mk.injEq]
            refine ⟨⟨hq, ?_, ?_⟩, ?_⟩
            · rw [hr, hRq]
            · rw [hRq]; simp
            · rw [hRq]; simpa using hihtail
        · -- stop: nothing at or after this entry changes, and nothing is reduced
          have hrdy' : e.ready = false := by
            cases hef : e.ready
            · rfl
            · exact absurd hef hrdy
          have hRq : R q = false := by rw [← hq] at hr ⊢; rw [← hr, hrdy']
          have hacc : (b && F q) = false := by rw [← hd, hred']
          rw [ddpWalk_cons_break ar p g e s' hred' hrdy']
          simp only [flagsOf_cons, chainFlags_cons, List.cons.injEq, Prod.mk.injEq]
          refine ⟨⟨hq, ?_, ?_⟩, ?_⟩
          · rw [hr, hRq]
          · rw [hred', hRq]; simp
          · rw [hRq]
            simp only [Bool.and_false]
            rw [htail, hacc, chainFlags_acc_false, chainFlags_acc_false]

theorem fireHook_chainFlags (ar : Int → Int) (p : Nat) (g : Int) (R : Nat → Bool)
    (ps : List Nat) (s : List Entry) (h : flagsOf s = chainFlags R R true ps) :
    flagsOf (fireHook ar p g s).1 =
      chainFlags (updReady R p) (updReady R p) true ps := by
  have h1 : flagsOf (setReady p s) = chainFlags (updReady R p) R true ps :=
    setReady_chainFlags p R R ps true s h
  have hRF : ∀ q, R q = true → updReady R p q = true := by
    intro q hAq
    by_cases hqp : q = p <;> simp [updReady, hqp, hAq]
  have h2 : flagsOf (ddpWalk ar p g (setReady p s)).1 =
      chainFlags (updReady R p) (updReady R p) true ps :=
    ddpWalk_chainFlags ar p g (updReady R p) R hRF ps true (setReady p s) h1
  rcases hw : ddpWalk ar p g (setReady p s) with ⟨s', ret, red⟩
  rw [hw] at h2
  simp only [fireHook, hw]
  rw [accumulateGrad_flagsOf]
  exact h2

theorem fireAll_chainFlags (ar : Int → Int) :
    ∀ (order : List (Nat × Int)) (R : Nat → Bool) (ps : List Nat) (s : List Entry),
      flagsOf s = chainFlags R R true ps →
      flagsOf (fireAll ar order s) =
        chainFlags (firedAfter R order) (firedAfter R order) true ps := by
  intro order
  induction order with
  | nil => intro R ps s h; simpa [fireAll, firedAfter] using h
  | cons pg rest ih =>
    intro R ps s h
    have h1 := fireHook_chainFlags ar pg.1 pg.2 R ps s h
    simpa [fireAll, firedAfter] using ih (updReady R pg.1) ps (fireHook ar pg.1 pg.2 s).1 h1

theorem chainFlags_const_false :
    ∀ (ps : List Nat) (b : Bool),
      chainFlags (fun _ => false) (fun _ => false) b ps =
        ps.map fun q => (q, false, false) := by
  intro ps
  induction ps with
  | nil => intro b; rfl
  | cons q ps ih => intro b; simp [ih]

theorem initState_flagsOf :
    ∀ ps : List (Nat × Int),
      flagsOf (initState ps) =
        chainFlags (fun _ => false) (fun _ => false) true (ps.map Prod.fst) := by
  intro ps
  rw [chainFlags_const_false]
  induction ps with
  | nil => rfl
  | cons pg rest ih =>
    simp only [initState, List.map_cons, flagsOf_cons, List.cons.injEq] at ih ⊢
    exact ⟨by simp [initEntry], ih⟩

theorem firedAfter_mem (q : Nat) :
    ∀ (order : List (Nat × Int)) (R : Nat → Bool),
      firedAfter R order q = true ↔ q ∈ order.map Prod.fst ∨ R q = true := by
  intro order
  induction order with
  | nil => intro R; simp [firedAfter]
  | cons pg rest ih =>
    intro R
    rw [firedAfter, ih (updReady R pg.1)]
    by_cases hq : q = pg.1 <;> simp [updReady, hq]

theorem chainFlags_all_reduced (R : Nat → Bool) :
    ∀ ps : List Nat, (∀ q ∈ ps, R q = true) →
      ∀ t ∈ chainFlags R R true ps, t.2.2 = true := by
  intro ps
  induction ps with
  | nil => intro _ t ht; simp at ht
  | cons q ps ih =>
    intro hall t ht
    have hq : R q = true := hall q (List.mem_cons_self q ps)
    rw [chainFlags_cons, hq] at ht
    simp only [Bool.and_true, List.mem_cons] at ht
    rcases ht with h | h
    · rw [h]
    · exact ih (fun x hx => hall x (List.mem_cons_of_mem q hx)) t (by simpa using h)

theorem chainFlags_reduced_acc (R F : Nat → Bool) :
    ∀ (ps : List Nat) (b : Bool) (t : Nat × Bool × Bool),
      t ∈ chainFlags R F b ps → t.2.2 = true → b = true := by
  intro ps
  induction ps with
  | nil => intro b t ht; simp at ht
  | cons q ps ih =>
    intro b t ht hred
    simp only [chainFlags_cons, List.mem_cons] at ht
    rcases ht with h | h
    · rw [h] at hred
      simp only at hred
      exact (Bool.and_eq_true_iff.mp hred).1
    · have : (b && F q) = true := ih (b && F q) t h hred
      exact (Bool.and_eq_true_iff.mp this).1

/-- No entry of the table is reduced while an entry before it (or the
entry itself) is not yet ready: position by position from the front,
whenever some entry from here on is reduced, this entry is ready. -/
def prefixReady : List Entry → Prop
  | [] => True
  | e :: rest => ((∃ x ∈ e :: rest, x.reduced = true) → e.ready = true) ∧ prefixReady rest

theorem chainFlags_prefixReady (R : Nat → Bool) :
    ∀ (ps : List Nat) (b : Bool) (s : List Entry),
      flagsOf s = chainFlags R R b ps → prefixReady s := by
  intro ps
  induction ps with
  | nil =>
    intro b s h
    cases s with
    | nil => trivial
    | cons e s' => simp at h
  | cons q ps ih =>
    intro b s h
    cases s with
    | nil => trivial
    | cons e s' =>
      simp only [flagsOf_cons, chainFlags_cons, List.cons.injEq, Prod.mk.injEq] at h
      obtain ⟨⟨hq, hr, hd⟩, htail⟩ := h
      refine ⟨?_, ih (b && R q) s' htail⟩
      rintro ⟨x, hx, hxred⟩
      rcases List.mem_cons.mp hx with hxe | hxs
      · subst hxe
        rw [hxred] at hd
        have : R q = true := (Bool.and_eq_true_iff.mp hd.symm).2
        rw [hr, this]
      · have hmem : (x.param, x.ready, x.reduced) ∈ flagsOf s' :=
          List.mem_map_of_mem _ hxs
        rw [htail] at hmem
        have : (b && R q) = true :=
          chainFlags_reduced_acc R R ps (b && R q) _ hmem hxred
        have hRq : R q = true := (Bool.and_eq_true_iff.mp this).2
        rw [hr, hRq]

/-! ## Claim theorems about the DDP coordinator -/

/-- Claim C1: for every backward pass in which the gradient-ready hooks
installed by DistributedDataParallel fire once per parameter in an
arbitrary order, after all hooks have fired every table entry is marked
reduced, and at every moment of the pass (after any prefix of the hook
firings) no entry is reduced while an entry earlier in the
reverse-registration-order table is still not ready. -/
theorem claim_C1_ddp_prefix_property (ar : Int → Int) (ps order : List (Nat × Int))
    (hperm : List.Perm (order.map Prod.fst) (ps.map Prod.fst)) :
    (∀ e ∈ fireAll ar order (initState ps), e.reduced = true) ∧
    (∀ pre rest, order = pre ++ rest →
      prefixReady (fireAll ar pre (initState ps))) := by
  constructor
  · intro e he
    have hchar := fireAll_chainFlags ar order (fun _ => false) (ps.map Prod.fst)
      (initState ps) (initState_flagsOf ps)
    have hmem : (e.param, e.ready, e.reduced) ∈
        flagsOf (fireAll ar order (initState ps)) :=
      List.mem_map_of_mem _ he
    rw [hchar] at hmem
    have hall : ∀ q ∈ ps.map Prod.fst, firedAfter (fun _ => false) order q = true := by
      intro q hq
      exact (firedAfter_mem q order (fun _ => false)).mpr (Or.inl (hperm.mem_iff.mpr hq))
    exact chainFlags_all_reduced _ (ps.map Prod.fst) hall _ hmem
  · intro pre rest _
    exact chainFlags_prefixReady _ (ps.map Prod.fst) true _
      (fireAll_chainFlags ar pre (fun _ => false) (ps.map Prod.fst)
        (initState ps) (initState_flagsOf ps))

theorem claim_C1_witness :
    (∀ e ∈ fireAll (fun g => g) [(2, 2), (3, 3), (1, 1)]
        (initState [(3, 0), (2, 0), (1, 0)]), e.reduced = true) ∧
    (∀ pre rest, [(2, 2), (3, 3), (1, 1)] = pre ++ rest →
      prefixReady (fireAll (fun g => g) pre (initState [(3, 0), (2, 0), (1, 0)]))) :=
  claim_C1_ddp_prefix_property (fun g => g) [(3, 0), (2, 0), (1, 0)]
    [(2, 2), (3, 3), (1, 1)] (by decide)

/-- A sample collective all-reduce on gradients, used by the concrete
scenario. -/
def sampleAllReduce : Int → Int := fun g => g * 10

/-- The table DistributedDataParallel builds for three parameters
registered in order p1, p2, p3 (ids 1, 2, 3): reverse registration
order. -/
def scenarioTable : List Entry := initState [(3, 0), (2, 0), (1, 0)]

def scenarioS1 : List Entry := (fireHook sampleAllReduce 2 2 scenarioTable).1

def scenarioS2 : List Entry := (fireHook sampleAllReduce 3 3 scenarioS1).1

def scenarioS3 : List Entry := (fireHook sampleAllReduce 1 1 scenarioS2).1

/-- Claim C2: with three parameters registered in order p1, p2, p3
(table order p3, p2, p1) and hooks firing in order p2, p3, p1: after
p2's hook nothing is reduced; p3's hook reduces p3 and p2 in that single
invocation; p1's hook reduces p1; at the end all three entries are
reduced, and the trace contains exactly two collective dispatch batches
(hook invocations that issued at least one all-reduce), not three. -/
theorem claim_C2_three_param_scenario :
    DistributedDataParallel 4 0 0 [(1, 0), (2, 0), (3, 0)] =
      .ok { world_size := 4, table := scenarioTable } ∧
    (fireHook sampleAllReduce 2 2 scenarioTable).2 = [] ∧
    (scenarioS1.all fun e => !e.reduced) = true ∧
    (fireHook sampleAllReduce 3 3 scenarioS1).2 = [3, 2] ∧
    scenarioS2.map (fun e => (e.param, e.reduced)) =
      [(3, true), (2, true), (1, false)] ∧
    (fireHook sampleAllReduce 1 1 scenarioS2).2 = [1] ∧
    (scenarioS3.all fun e => e.reduced) = true ∧
    dispatchBatches
      (fireSeq sampleAllReduce [(2, 2), (3, 3), (1, 1)] scenarioTable).2 = 2 :=
  ⟨rfl, rfl, rfl, rfl, rfl, rfl, rfl, rfl⟩

/-- Claim C7: the forward hook resets every table entry to
`(False, False)`, whatever the prior state of the table was, and touches
nothing else of the table's keys. -/
theorem claim_C7_forward_reset (s : List Entry) :
    ((forwardHookReset s).all fun e => !e.ready && !e.reduced) = true ∧
    (forwardHookReset s).map Entry.param = s.map Entry.param := by
  constructor
  · simp [forwardHookReset, List.all_eq_true]
  · simp [forwardHookReset, List.map_map, Function.comp]

/-- Claim C9: DistributedDataParallel fails with a fatal assertion error
exactly when the local rank differs from the global rank, before any
table or hook is built; when they agree it proceeds to build the
reversed-parameter readiness table. -/
theorem claim_C9_rank_assertion (world_size local_rank rank : Nat)
    (ps : List (Nat × Int)) :
    (local_rank ≠ rank →
      DistributedDataParallel world_size local_rank rank ps =
        .error (.assertionFailed "local_rank_eq_rank")) ∧
    (local_rank = rank →
      DistributedDataParallel world_size local_rank rank ps =
        .ok { world_size := world_size, table := initState ps.reverse }) := by
  constructor
  · intro h; simp [DistributedDataParallel, h]
  · intro h; simp [DistributedDataParallel, h]

theorem claim_C9_witness :
    DistributedDataParallel 2 0 1 [(1, 0)] =
      .error (.assertionFailed "local_rank_eq_rank") ∧
    DistributedDataParallel 2 0 0 [(1, 0)] =
      .ok { world_size := 2, table := initState [(1, 0)].reverse } :=
  ⟨(claim_C9_rank_assertion 2 0 1 [(1, 0)]).1 (by decide),
   (claim_C9_rank_assertion 2 0 0 [(1, 0)]).2 rfl⟩

/-! ## Pointwise behaviour of the walk -/

theorem forall₂_comp {α β γ : Type} {r : α → β → Prop} {t : β → γ → Prop}
    {u : α → γ → Prop} (h : ∀ a b c, r a b → t b c → u a c) :
    ∀ {l₁ : List α} {l₂ : List β} {l₃ : List γ},
      List.Forall₂ r l₁ l₂ → List.Forall₂ t l₂ l₃ → List.Forall₂ u l₁ l₃ := by
  intro l₁ l₂ l₃ h12
  induction h12 generalizing l₃ with
  | nil => intro h23; cases h23; exact .nil
  | cons hab hrest ih =>
    intro h23
    cases h23 with
    | cons hbc hrest' => exact .cons (h _ _ _ hab hbc) (ih hrest')

theorem forall₂_map_self {α : Type} (f : α → α) :
    ∀ l : List α, List.Forall₂ (fun a b => b = f a) l (l.map f) := by
  intro l
  induction l with
  | nil => exact .nil
  | cons a l ih => exact .cons rfl ih

theorem bool_eq_false_of_ne_true {b : Bool} (h : ¬b = true) : b = false := by
  cases hb : b
  · rfl
  · exact absurd hb h

/-- The walk never touches the ready flag or the key of an entry, and
only ever turns the reduced flag on. -/
theorem ddpWalk_mono (ar : Int → Int) (p : Nat) (g : Int) :
    ∀ s : List Entry,
      List.Forall₂ (fun e e' => e'.param = e.param ∧ e'.ready = e.ready ∧
          (e.reduced = true → e'.reduced = true)) s (ddpWalk ar p g s).1 := by
  intro s
  induction s with
  | nil => exact .nil
  | cons e rest ih =>
    by_cases hred : e.reduced = true
    · rw [ddpWalk_cons_skip ar p g e rest hred]
      exact .cons ⟨rfl, rfl, fun h => h⟩ ih
    · have hred' : e.reduced = false := bool_eq_false_of_ne_true hred
      by_cases hrdy : e.ready = true
      · by_cases hp : e.param = p
        · rw [ddpWalk_cons_reduce_self ar p g e rest hred' hrdy hp]
          exact .cons ⟨rfl, rfl, fun _ => rfl⟩ ih
        · rw [ddpWalk_cons_reduce_other ar p g e rest hred' hrdy hp]
          exact .cons ⟨rfl, rfl, fun _ => rfl⟩ ih
      · have hrdy' : e.ready = false := bool_eq_false_of_ne_true hrdy
        rw [ddpWalk_cons_break ar p g e rest hred' hrdy']
        exact List.forall₂_same.mpr fun a _ => ⟨rfl, rfl, fun h => h⟩

/-- An entry whose slot 1 (read as `deleted` by the loop) is set is
skipped by the walk: it comes out of the walk exactly as it went in. -/
theorem ddpWalk_skips_reduced (ar : Int → Int) (p : Nat) (g : Int) :
    ∀ s : List Entry,
      List.Forall₂ (fun e e' => e.reduced = true → e' = e) s (ddpWalk ar p g s).1 := by
  intro s
  induction s with
  | nil => exact .nil
  | cons e rest ih =>
    by_cases hred : e.reduced = true
    · rw [ddpWalk_cons_skip ar p g e rest hred]
      exact .cons (fun _ => rfl) ih
    · have hred' : e.reduced = false := bool_eq_false_of_ne_true hred
      by_cases hrdy : e.ready = true
      · by_cases hp : e.param = p
        · rw [ddpWalk_cons_reduce_self ar p g e rest hred' hrdy hp]
          exact .cons (fun h => absurd h hred) ih
        · rw [ddpWalk_cons_reduce_other ar p g e rest hred' hrdy hp]
          exact .cons (fun h => absurd h hred) ih
      · have hrdy' : e.ready = false := bool_eq_false_of_ne_true hrdy
        rw [ddpWalk_cons_break ar p g e rest hred' hrdy']
        exact List.forall₂_same.mpr fun a _ _ => rfl

/-- Every parameter the walk reduces is a key of the table. -/
theorem ddpWalk_redList_subset (ar : Int → Int) (p : Nat) (g : Int) :
    ∀ s : List Entry, ∀ q ∈ (ddpWalk ar p g s).2.2, q ∈ s.map Entry.param := by
  intro s
  induction s with
  | nil => intro q hq; simp at hq
  | cons e rest ih =>
    intro q hq
    simp only [List.map_cons, List.mem_cons]
    by_cases hred : e.reduced = true
    · rw [ddpWalk_cons_skip ar p g e rest hred] at hq
      exact Or.inr (ih q hq)
    · have hred' : e.reduced = false := bool_eq_false_of_ne_true hred
      by_cases hrdy : e.ready = true
      · by_cases hp : e.param = p
        · rw [ddpWalk_cons_reduce_self ar p g e rest hred' hrdy hp] at hq
          rcases List.mem_cons.mp hq with h | h
          · exact Or.inl h
          · exact Or.inr (ih q h)
        · rw [ddpWalk_cons_reduce_other ar p g e rest hred' hrdy hp] at hq
          rcases List.mem_cons.mp hq with h | h
          · exact Or.inl h
          · exact Or.inr (ih q h)
      · have hrdy' : e.ready = false := bool_eq_false_of_ne_true hrdy
        rw [ddpWalk_cons_break ar p g e rest hred' hrdy'] at hq
        simp at hq

/-- A reduced (`deleted`) entry contributes no all-reduce: its key is
not among the parameters reduced by the walk. -/
theorem ddpWalk_reduced_not_in_redList (ar : Int → Int) (p : Nat) (g : Int) :
    ∀ s : List Entry, (s.map Entry.param).Nodup →
      ∀ e ∈ s, e.reduced = true → e.param ∉ (ddpWalk ar p g s).2.2 := by
  intro s
  induction s with
  | nil => intro _ e he; simp at he
  | cons f rest ih =>
    intro hnd e he hered
    simp only [List.map_cons, List.nodup_cons] at hnd
    obtain ⟨hfnot, hndrest⟩ := hnd
    by_cases hred : f.reduced = true
    · rw [ddpWalk_cons_skip ar p g f rest hred]
      rcases List.mem_cons.mp he with hef | hem
      · subst hef
        intro hcontra
        exact hfnot (ddpWalk_redList_subset ar p g rest e.param hcontra)
      · exact ih hndrest e hem hered
    · have hred' : f.reduced = false := bool_eq_false_of_ne_true hred
      by_cases hrdy : f.ready = true
      · have hne : e.param ∉ (ddpWalk ar p g rest).2.2 ∧ e.param ≠ f.param := by
          rcases List.mem_cons.mp he with hef | hem
          · subst hef
            rw [hered] at hred'
            exact absurd hred' (by simp)
          · refine ⟨ih hndrest e hem hered, ?_⟩
            intro hcontra
            exact hfnot (hcontra ▸ List.mem_map_of_mem Entry.param hem)
        by_cases hp : f.param = p
        · rw [ddpWalk_cons_reduce_self ar p g f rest hred' hrdy hp]
          intro hcontra
          rcases List.mem_cons.mp hcontra with h | h
          · exact hne.2 h
          · exact hne.1 h
        · rw [ddpWalk_cons_reduce_other ar p g f rest hred' hrdy hp]
          intro hcontra
          rcases List.mem_cons.mp hcontra with h | h
          · exact hne.2 h
          · exact hne.1 h
      · have hrdy' : f.ready = false := bool_eq_false_of_ne_true hrdy
        rw [ddpWalk_cons_break ar p g f rest hred' hrdy']
        simp

/-- The reduced entries of a table form a contiguous prefix: below the
first entry whose slot 1 is clear, no entry has it set. -/
def redContig : List Entry → Prop
  | [] => True
  | e :: rest => if e.reduced = true then redContig rest else ∀ x ∈ rest, x.reduced = false

theorem redContig_cons (e : Entry) (rest : List Entry) :
    redContig (e :: rest) =
      if e.reduced = true then redContig rest
      else ∀ x ∈ rest, x.reduced = false := rfl

theorem redContig_of_all_false :
    ∀ s : List Entry, (∀ x ∈ s, x.reduced = false) → redContig s := by
  intro s
  induction s with
  | nil => intro _; trivial
  | cons e rest ih =>
    intro h
    rw [redContig_cons, if_neg (by simp [h e (List.mem_cons_self e rest)])]
    intro x hx
    exact h x (List.mem_cons_of_mem e hx)

/-- The walk preserves prefix-contiguity of the reduced flags. -/
theorem ddpWalk_redContig (ar : Int → Int) (p : Nat) (g : Int) :
    ∀ s : List Entry, redContig s → redContig (ddpWalk ar p g s).1 := by
  intro s
  induction s with
  | nil => intro _; trivial
  | cons e rest ih =>
    intro hc
    by_cases hred : e.reduced = true
    · have hcrest : redContig rest := by
        rw [redContig_cons, if_pos hred] at hc
        exact hc
      rw [ddpWalk_cons_skip ar p g e rest hred, redContig_cons, if_pos hred]
      exact ih hcrest
    · have hred' : e.reduced = false := bool_eq_false_of_ne_true hred
      have hall : ∀ x ∈ rest, x.reduced = false := by
        rw [redContig_cons, if_neg hred] at hc
        exact hc
      have hcrest : redContig (ddpWalk ar p g rest).1 :=
        ih (redContig_of_all_false rest hall)
      by_cases hrdy : e.ready = true
      · by_cases hp : e.param = p
        · rw [ddpWalk_cons_reduce_self ar p g e rest hred' hrdy hp,
            redContig_cons, if_pos rfl]
          exact hcrest
        · rw [ddpWalk_cons_reduce_other ar p g e rest hred' hrdy hp,
            redContig_cons, if_pos rfl]
          exact hcrest
      · have hrdy' : e.ready = false := bool_eq_false_of_ne_true hrdy
        rw [ddpWalk_cons_break ar p g e rest hred' hrdy']
        exact hc

/-- Claim C5: during the ordered table walk of one gradient-ready hook,
every entry whose slot 1 (`deleted` in the loop's destructuring) is set
is skipped — it is not all-reduced (its key is not among the reduced
parameters), its entry is left untouched — and the prefix-contiguity of
the reduced flags is preserved by the walk. -/
theorem claim_C5_deleted_skip (ar : Int → Int) (p : Nat) (g : Int) (s : List Entry)
    (hnd : (s.map Entry.param).Nodup) (hc : redContig s) :
    (∀ e ∈ s, e.reduced = true → e.param ∉ (ddpWalk ar p g s).2.2) ∧
    List.Forall₂ (fun e e' => e.reduced = true → e' = e) s (ddpWalk ar p g s).1 ∧
    redContig (ddpWalk ar p g s).1 :=
  ⟨ddpWalk_reduced_not_in_redList ar p g s hnd,
   ddpWalk_skips_reduced ar p g s,
   ddpWalk_redContig ar p g s hc⟩

def witnessEntryA : Entry := { param := 5, ready := true, reduced := true, grad := 7 }

def witnessEntryB : Entry := { param := 6, ready := true, reduced := false, grad := 8 }

theorem claim_C5_witness :
    (∀ e ∈ [witnessEntryA, witnessEntryB], e.reduced = true →
      e.param ∉ (ddpWalk (fun x => x) 6 1 [witnessEntryA, witnessEntryB]).2.2) ∧
    List.Forall₂ (fun e e' => e.reduced = true → e' = e)
      [witnessEntryA, witnessEntryB]
      (ddpWalk (fun x => x) 6 1 [witnessEntryA, witnessEntryB]).1 ∧
    redContig (ddpWalk (fun x => x) 6 1 [witnessEntryA, witnessEntryB]).1 :=
  claim_C5_deleted_skip (fun x => x) 6 1 [witnessEntryA, witnessEntryB]
    (by decide)
    (by
      rw [redContig_cons, if_pos (show witnessEntryA.reduced = true from rfl),
        redContig_cons, if_neg (by decide)]
      intro x hx
      simp at hx)

/-- Claim C6: within one backward pass the table is monotone under hook
firings — a full hook invocation never clears a ready flag or a reduced
flag and never renames a key — and the walk leaves an already-reduced
entry completely untouched, so an entry's reduced flag is assigned at
most once per pass. -/
theorem claim_C6_monotone (ar : Int → Int) (p : Nat) (g : Int) (s : List Entry) :
    List.Forall₂ (fun e e' => e'.param = e.param ∧
        (e.ready = true → e'.ready = true) ∧
        (e.reduced = true → e'.reduced = true))
      s (fireHook ar p g s).1 ∧
    List.Forall₂ (fun e e' => e.reduced = true → e' = e) s (ddpWalk ar p g s).1 := by
  refine ⟨?_, ddpWalk_skips_reduced ar p g s⟩
  rcases hw : ddpWalk ar p g (setReady p s) with ⟨s', ret, red⟩
  have hset : List.Forall₂
      (fun a b => b = if a.param = p then { a with ready := true } else a)
      s (setReady p s) :=
    forall₂_map_self _ s
  have hwalk := ddpWalk_mono ar p g (setReady p s)
  rw [hw] at hwalk
  have hacc : List.Forall₂
      (fun a b => b = if a.param = p then { a with grad := ret.getD g } else a)
      s' (accumulateGrad p ret g s') :=
    forall₂_map_self _ s'
  have h1 : List.Forall₂ (fun e e' => e'.param = e.param ∧
      (e.ready = true → e'.ready = true) ∧ (e.reduced = true → e'.reduced = true))
      s s' := by
    refine forall₂_comp ?_ hset hwalk
    intro a b c hb hc
    obtain ⟨hcp, hcr, hcd⟩ := hc
    by_cases hp : a.param = p
    · rw [if_pos hp] at hb
      subst hb
      exact ⟨hcp, fun _ => by rw [hcr], fun h => hcd h⟩
    · rw [if_neg hp] at hb
      subst hb
      exact ⟨hcp, fun h => by rw [hcr]; exact h, fun h => hcd h⟩
  have h2 : List.Forall₂ (fun e e' => e'.param = e.param ∧
      (e.ready = true → e'.ready = true) ∧ (e.reduced = true → e'.reduced = true))
      s (accumulateGrad p ret g s') := by
    refine forall₂_comp ?_ h1 hacc
    intro a b c hb hc
    obtain ⟨hbp, hbr, hbd⟩ := hb
    by_cases hp : b.param = p
    · rw [if_pos hp] at hc
      subst hc
      exact ⟨hbp, hbr, hbd⟩
    · rw [if_neg hp] at hc
      subst hc
      exact ⟨hbp, hbr, hbd⟩
  simpa [fireHook, hw] using h2

/-! ## Claim theorems about the interface blob layer -/

theorem foldl_append_eq {α : Type} :
    ∀ l acc : List α, l.foldl (fun a x => a ++ [x]) acc = acc ++ l := by
  intro l
  induction l with
  | nil => intro acc; simp
  | cons x l ih => intro acc; simp [List.foldl_cons, ih]

/-- Claim C4: translating a raw parallel configuration to structured
form preserves the device tag, the ordered device-name list, and every
hierarchy dimension (asserting the dimension list non-empty), so the raw
fields are recoverable from the structured form. -/
theorem claim_C4_parallel_conf_roundtrip (pc : RawParallelConf) :
    (∀ cfg, translateParallelConf pc = .ok cfg →
      cfg.device_tag = pc.device_tag ∧
      cfg.device_name = pc.device_name ∧
      (pc.hierarchy = none → cfg.hierarchy = none) ∧
      (∀ dims, pc.hierarchy = some dims → cfg.hierarchy = some { dim := dims })) ∧
    (pc.hierarchy = some [] →
      translateParallelConf pc = .error (.assertionFailed "hierarchy_dim_size")) ∧
    resolveParallelConf (.rawConf pc) = translateParallelConf pc := by
  refine ⟨?_, ?_, rfl⟩
  · intro cfg hcfg
    unfold translateParallelConf at hcfg
    cases hh : pc.hierarchy with
    | none =>
      rw [hh] at hcfg
      simp only [Except.ok.injEq] at hcfg
      subst hcfg
      refine ⟨rfl, foldl_append_eq pc.device_name [], fun _ => rfl, ?_⟩
      intro dims hdims
      cases hdims
    | some dims =>
      rw [hh] at hcfg
      simp only at hcfg
      rw [foldl_append_eq dims []] at hcfg
      by_cases hlen : ([] ++ dims : List Nat).length > 0
      · rw [if_pos hlen] at hcfg
        simp only [Except.ok.injEq] at hcfg
        subst hcfg
        refine ⟨rfl, foldl_append_eq pc.device_name [], ?_, ?_⟩
        · intro hnone; cases hnone
        · intro dims' hdims'
          cases hdims'
          simp
      · rw [if_neg hlen] at hcfg
        cases hcfg
  · intro hh
    unfold translateParallelConf
    rw [hh]
    simp

def samplePC : RawParallelConf :=
  { device_tag := "gpu", device_name := ["0:0-3", "1:0-3"], hierarchy := some [2, 4] }

def sampleCfg : CfgParallelConf :=
  { device_tag := "gpu", device_name := ["0:0-3", "1:0-3"]
    hierarchy := some { dim := [2, 4] } }

theorem claim_C4_witness :
    sampleCfg.device_tag = samplePC.device_tag ∧
    sampleCfg.device_name = samplePC.device_name ∧
    (samplePC.hierarchy = none → sampleCfg.hierarchy = none) ∧
    (∀ dims, samplePC.hierarchy = some dims → sampleCfg.hierarchy = some { dim := dims }) :=
  (claim_C4_parallel_conf_roundtrip samplePC).1 sampleCfg rfl

/-- Claim C3: resolving the same interface op name twice in one session
returns the identical blob both times; the second call leaves the
session state untouched (no LogicalRun dispatch, no cache write), a
first call that misses the cache dispatches exactly one LogicalRun, and
a first call that hits the cache is already pure. -/
theorem claim_C3_cache_idempotent (env : SessionEnv) (op_name : String)
    (s s₁ : SessionState) (rb : RemoteBlob)
    (h : GetEagerInterfaceBlob env op_name s = .ok (rb, s₁)) :
    GetEagerInterfaceBlob env op_name s₁ = .ok (rb, s₁) ∧
    (lookupCache op_name s.lazyBlobCache = none →
      s₁.logicalRunCount = s.logicalRunCount + 1) ∧
    (∀ rb', lookupCache op_name s.lazyBlobCache = some rb' → rb' = rb ∧ s₁ = s) := by
  unfold GetEagerInterfaceBlob FindOrCreateLazyBlob at h ⊢
  cases hc : lookupCache op_name s.lazyBlobCache with
  | some rb' =>
    rw [hc] at h
    simp only [Except.ok.injEq, Prod.mk.injEq] at h
    obtain ⟨hrb, hs⟩ := h
    subst hrb
    subst hs
    rw [hc]
    refine ⟨rfl, ?_, ?_⟩
    · intro hnone
      cases hnone
    · intro rb'' hrb''
      cases hrb''
      exact ⟨rfl, rfl⟩
  | none =>
    rw [hc] at h
    cases hf : CreateBlob env op_name s with
    | error e => rw [hf] at h; cases h
    | ok pair =>
      obtain ⟨rb₀, s'⟩ := pair
      rw [hf] at h
      simp only [Except.ok.injEq, Prod.mk.injEq] at h
      obtain ⟨hrb, hs⟩ := h
      subst hrb
      subst hs
      refine ⟨?_, ?_, ?_⟩
      · simp [lookupCache]
      · intro _
        unfold CreateBlob at hf
        cases hb : buildInterfaceBlob env op_name with
        | error e => rw [hb] at hf; cases hf
        | ok rb₁ =>
          rw [hb] at hf
          simp only [Except.ok.injEq, Prod.mk.injEq] at hf
          simp [← hf.2]
      · intro rb'' hrb''
        cases hrb''

def sampleCfg0 : CfgParallelConf :=
  { device_tag := "cpu", device_name := ["0:0"], hierarchy := none }

def sampleEnv : SessionEnv :=
  { eagerExecutionEnabled := false
    varNameToVarBlob := fun _ => none
    opAttrOf := fun _ => some { output_bns := ["out"] }
    jobNameOf := fun _ => "job0"
    parallelConfOf := fun _ => .cfgConf sampleCfg0
    mirroredOf := fun _ => false
    numpyOf := fun _ => 0 }

def sampleState : SessionState := { lazyBlobCache := [], logicalRunCount := 0 }

def sampleBlob : RemoteBlob :=
  .eagerConsistent (.cfg "var0" "out")
    { op_name := "var0", parallel_conf := sampleCfg0, is_mirrored := false } "job0"

def sampleState1 : SessionState :=
  { lazyBlobCache := [("var0", sampleBlob)], logicalRunCount := 1 }

theorem claim_C3_witness :
    GetEagerInterfaceBlob sampleEnv "var0" sampleState1 = .ok (sampleBlob, sampleState1) ∧
    (lookupCache "var0" sampleState.lazyBlobCache = none →
      sampleState1.logicalRunCount = sampleState.logicalRunCount + 1) ∧
    (∀ rb', lookupCache "var0" sampleState.lazyBlobCache = some rb' →
      rb' = sampleBlob ∧ sampleState1 = sampleState) :=
  claim_C3_cache_idempotent sampleEnv "var0" sampleState sampleState1 sampleBlob rfl

theorem translateParallelConf_error (pc : RawParallelConf) (e : Err)
    (h : translateParallelConf pc = .error e) :
    e = .assertionFailed "hierarchy_dim_size" := by
  unfold translateParallelConf at h
  cases hh : pc.hierarchy with
  | none => rw [hh] at h; cases h
  | some dims =>
    rw [hh] at h
    simp only at h
    by_cases hlen : (ShapeProto.mk (dims.foldl (fun acc d => acc ++ [d]) [])).dim.length > 0
    · rw [if_pos hlen] at h; cases h
    · rw [if_neg hlen] at h
      cases h
      rfl

theorem resolveParallelConf_error (x : ParallelConfInput) (e : Err)
    (h : resolveParallelConf x = .error e) :
    e = .assertionFailed "hierarchy_dim_size" := by
  cases x with
  | cfgConf c => cases h
  | rawConf c => exact translateParallelConf_error c e h

theorem _GetInterfaceBlobObject_error (env : SessionEnv) (op_name : String) (e : Err)
    (h : _GetInterfaceBlobObject env op_name = .error e) :
    e = .notFound ∨ e = .assertionFailed "hierarchy_dim_size" := by
  unfold _GetInterfaceBlobObject at h
  by_cases heager : env.eagerExecutionEnabled = true
  · rw [if_pos heager] at h
    cases hv : env.varNameToVarBlob op_name with
    | some bo => rw [hv] at h; cases h
    | none => rw [hv] at h; cases h; exact Or.inl rfl
  · rw [if_neg heager] at h
    cases ha : env.opAttrOf op_name with
    | none => rw [ha] at h; cases h; exact Or.inl rfl
    | some attr =>
      rw [ha] at h
      cases hr : resolveParallelConf (env.parallelConfOf op_name) with
      | error e' =>
        rw [hr] at h
        cases h
        exact Or.inr (resolveParallelConf_error _ _ hr)
      | ok conf => rw [hr] at h; cases h

theorem buildInterfaceBlob_assert (env : SessionEnv) (op_name : String)
    (attr : OpAttribute) (hattr : env.opAttrOf op_name = some attr)
    (hlen : attr.output_bns.length ≠ 1)
    (bo : BlobObject) (hbo : _GetInterfaceBlobObject env op_name = .ok bo) :
    buildInterfaceBlob env op_name = .error (.assertionFailed "output_bns") := by
  simp [buildInterfaceBlob, hbo, hattr, hlen]

theorem buildInterfaceBlob_error_ne (env : SessionEnv) (op_name : String)
    (attr : OpAttribute) (hattr : env.opAttrOf op_name = some attr)
    (hlen : attr.output_bns.length = 1) (e : Err)
    (h : buildInterfaceBlob env op_name = .error e) :
    e ≠ .assertionFailed "output_bns" := by
  unfold buildInterfaceBlob at h
  cases hbo : _GetInterfaceBlobObject env op_name with
  | error e' =>
    rw [hbo] at h
    cases h
    rcases _GetInterfaceBlobObject_error env op_name e hbo with h' | h' <;>
      · rw [h']; decide
  | ok bo =>
    simp [hbo, hattr, hlen] at h

theorem GetEager_cache_hit (env : SessionEnv) (op_name : String) (s : SessionState)
    (rb : RemoteBlob) (hc : lookupCache op_name s.lazyBlobCache = some rb) :
    GetEagerInterfaceBlob env op_name s = .ok (rb, s) := by
  unfold GetEagerInterfaceBlob FindOrCreateLazyBlob
  rw [hc]

theorem GetEager_error_ne (env : SessionEnv) (op_name : String) (s : SessionState)
    (attr : OpAttribute) (hattr : env.opAttrOf op_name = some attr)
    (hlen : attr.output_bns.length = 1) (e : Err)
    (h : GetEagerInterfaceBlob env op_name s = .error e) :
    e ≠ .assertionFailed "output_bns" := by
  unfold GetEagerInterfaceBlob FindOrCreateLazyBlob at h
  cases hc : lookupCache op_name s.lazyBlobCache with
  | some rb => rw [hc] at h; cases h
  | none =>
    rw [hc] at h
    cases hf : CreateBlob env op_name s with
    | ok pair => rw [hf] at h; cases h
    | error e' =>
      rw [hf] at h
      cases h
      unfold CreateBlob at hf
      cases hb : buildInterfaceBlob env op_name with
      | ok rb => rw [hb] at hf; cases hf
      | error e'' =>
        rw [hb] at hf
        cases hf
        exact buildInterfaceBlob_error_ne env op_name attr hattr hlen e hb

/-- Claim C8: both GetEagerInterfaceBlob (on the path that resolves the
op attribute, i.e. a cache miss whose blob object materializes) and
GetInterfaceBlobValue require exactly one output binding name; with more
or fewer than one they fail with the `output_bns` assertion before any
blob is wrapped, and with exactly one that assertion can never be the
outcome. -/
theorem claim_C8_output_bns_assertion (env : SessionEnv) (op_name : String)
    (s : SessionState) (attr : OpAttribute)
    (hattr : env.opAttrOf op_name = some attr) :
    (attr.output_bns.length ≠ 1 →
      (lookupCache op_name s.lazyBlobCache = none →
        (∃ bo, _GetInterfaceBlobObject env op_name = .ok bo) →
        GetEagerInterfaceBlob env op_name s = .error (.assertionFailed "output_bns")) ∧
      ((lookupCache op_name s.lazyBlobCache ≠ none ∨
          ∃ bo, _GetInterfaceBlobObject env op_name = .ok bo) →
        GetInterfaceBlobValue env op_name s =
          .error (.assertionFailed "output_bns"))) ∧
    (attr.output_bns.length = 1 →
      GetEagerInterfaceBlob env op_name s ≠ .error (.assertionFailed "output_bns") ∧
      GetInterfaceBlobValue env op_name s ≠ .error (.assertionFailed "output_bns")) := by
  constructor
  · intro hlen
    have hmiss : lookupCache op_name s.lazyBlobCache = none →
        (∃ bo, _GetInterfaceBlobObject env op_name = .ok bo) →
        GetEagerInterfaceBlob env op_name s =
          .error (.assertionFailed "output_bns") := by
      intro hc hbo
      obtain ⟨bo, hbo⟩ := hbo
      unfold GetEagerInterfaceBlob FindOrCreateLazyBlob
      rw [hc]
      unfold CreateBlob
      rw [buildInterfaceBlob_assert env op_name attr hattr hlen bo hbo]
    refine ⟨hmiss, ?_⟩
    intro hsrc
    unfold GetInterfaceBlobValue
    cases hc : lookupCache op_name s.lazyBlobCache with
    | some rb =>
      rw [GetEager_cache_hit env op_name s rb hc]
      simp [hattr, hlen]
    | none =>
      rcases hsrc with hne | hbo
      · exact absurd hc hne
      · rw [hmiss hc hbo]
  · intro hlen
    constructor
    · intro hcontra
      exact GetEager_error_ne env op_name s attr hattr hlen _ hcontra rfl
    · intro hcontra
      unfold GetInterfaceBlobValue at hcontra
      cases hg : GetEagerInterfaceBlob env op_name s with
      | error e =>
        rw [hg] at hcontra
        cases hcontra
        exact GetEager_error_ne env op_name s attr hattr hlen _ hg rfl
      | ok pair =>
        obtain ⟨rb, s₁⟩ := pair
        simp [hg, hattr, hlen] at hcontra

def sampleBlobObject : BlobObject :=
  { op_name := "v", parallel_conf := sampleCfg0, is_mirrored := false }

def sampleBadEnv : SessionEnv :=
  { eagerExecutionEnabled := true
    varNameToVarBlob := fun _ => some sampleBlobObject
    opAttrOf := fun _ => some { output_bns := ["o1", "o2"] }
    jobNameOf := fun _ => "job0"
    parallelConfOf := fun _ => .cfgConf sampleCfg0
    mirroredOf := fun _ => false
    numpyOf := fun _ => 0 }

theorem claim_C8_witness :
    GetEagerInterfaceBlob sampleBadEnv "v" sampleState =
      .error (.assertionFailed "output_bns") ∧
    GetInterfaceBlobValue sampleBadEnv "v" sampleState =
      .error (.assertionFailed "output_bns") :=
  ⟨((claim_C8_output_bns_assertion sampleBadEnv "v" sampleState
      { output_bns := ["o1", "o2"] } rfl).1 (by decide)).1 rfl ⟨sampleBlobObject, rfl⟩,
   ((claim_C8_output_bns_assertion sampleBadEnv "v" sampleState
      { output_bns := ["o1", "o2"] } rfl).1 (by decide)).2
     (Or.inr ⟨sampleBlobObject, rfl⟩)⟩

/-- Claim C10: the defensive re-normalization branch of
GetInterfaceBlobValue is dead code: the logical blob id is constructed
in structured form immediately before the isinstance check, so the check
always succeeds and the function equals the same function with the
branch removed, on every input. -/
theorem claim_C10_renorm_dead (env : SessionEnv) (op_name : String)
    (s : SessionState) :
    GetInterfaceBlobValue env op_name s = GetInterfaceBlobValueNoRenorm env op_name s ∧
    (∀ a b : String, (Lbi.cfg a b).isCfg = true) := by
  refine ⟨?_, fun a b => rfl⟩
  unfold GetInterfaceBlobValue GetInterfaceBlobValueNoRenorm
  cases hg : GetEagerInterfaceBlob env op_name s with
  | error e => rfl
  | ok pair =>
    obtain ⟨rb, s₁⟩ := pair
    cases ha : env.opAttrOf op_name with
    | none => rfl
    | some attr =>
      by_cases hlen : attr.output_bns.length = 1 <;>
        simp [hlen, Lbi.isCfg]

end OneflowModel
